import Mathlib

/-!
Verification development for `hashMap_with_expansion.py`: a hash map built
from two parallel slot arrays (`_keys`, `_values`), a DJB2-style custom hash,
a fixed-stride probe `((5 + p) + 1) % size`, and capacity growth (×4) checked
before each insertion.

Python data is modelled as follows: a Python key is a `PyKey` (an `int`, a
text string, or a value of any other type, e.g. the float `3.14`, represented
by the `other` constructor); the Python value `None` is `Option.none`, so the
slot arrays are `List (Option PyKey)` / `List (Option α)` and a stored value
is an `Option α`.  Unbounded recursion in the source (`_set_item`,
`_get_pos_recursively`) is given a fuel parameter; a result of `none` means
the recursion does not terminate within the given fuel, `some (Except.error e)`
models a raised exception and `some (Except.ok x)` a normal return.
-/

namespace ProbingHash

/-- A Python value in key position: an `int`, a text string, or a value of any
other type (e.g. the float `3.14`), which the map rejects.  The `other`
constructor carries an arbitrary tag so that distinct unacceptable keys can be
told apart; `custom_hash` is never reached on them because every operation
validates the key first, exactly as in the source. -/
inductive PyKey where
  | int (n : Int)
  | str (s : String)
  | other (tag : Nat)
deriving DecidableEq

/-- The loop `for char in key: result = 33 * result + ord(char)` of
`custom_hash`, accumulating over the characters of the text in order. -/
def hash_loop (result : Nat) : List Char → Nat
  | [] => result
  | c :: rest => hash_loop (33 * result + c.toNat) rest

/-- `custom_hash` from the source: an integer hashes to itself; a text key is
hashed by the DJB2-style loop starting from 5381.  On a key of any other type
the Python function would fault iterating it, but the class never calls the
hash before validating the key, so the value returned here (0) is never
observed by the operations. -/
def custom_hash : PyKey → Int
  | .int n => n
  | .str s => Int.ofNat (hash_loop 5381 s.data)
  | .other _ => 0

/-- A Python error escaping an operation: `TypeError` (the spec's
`InvalidKeyKind`) or `KeyError` (the spec's `KeyNotFound`). -/
inductive PyErr where
  | typeError
  | keyError
deriving DecidableEq

/-- The state of class `Hash`: `size` is `_size`, `initial_size` is
`__initial_size`, `used_slots` is `_used_slots`, `dummy_slots` is
`_dummy_slots`, `keys` is `_keys`, `values` is `_values`, and `hash` is the
stored hash function.  `_max_threshold` is the constant 0.70 and is folded
into `should_expand` below. -/
structure Hash (α : Type) where
  size : Nat
  initial_size : Nat
  used_slots : Nat
  dummy_slots : Nat
  keys : List (Option PyKey)
  values : List (Option α)
  hash : PyKey → Int

/-- `Hash.__init__(self, size=8, hashfunction=custom_hash)`.  Note that the
source body assigns the literal `8` to `self._size` and `custom_hash` to
`self.hash`: both constructor arguments are accepted and then ignored. -/
def mkHash (α : Type) (size : Nat := 8) (hashfunction : PyKey → Int := custom_hash) : Hash α :=
  { size := 8
    initial_size := 8
    used_slots := 0
    dummy_slots := 0
    keys := List.replicate 8 none
    values := List.replicate 8 none
    hash := custom_hash }

/-- `should_expand`: `(float(self._used_slots + self._dummy_slots) / self._size)
>= self._max_threshold` with `_max_threshold = 0.70`.  The float comparison is
modelled by the exact rational comparison `(used + dummy) / size ≥ 7 / 10`,
cleared of denominators; the two agree on every capacity the map can reach in
practice (all sizes are `8 * 4^k`, so the ratio is a dyadic rational that the
float division represents exactly). -/
def should_expand {α : Type} (s : Hash α) : Bool :=
  7 * s.size ≤ 10 * (s.used_slots + s.dummy_slots)

/-- `_probing`: `((5 + current_position) + 1) % self._size`. -/
def Hash.probing {α : Type} (s : Hash α) (current_position : Nat) : Nat :=
  ((5 + current_position) + 1) % s.size

/-- `_calculate_position`: `hashvalue % self._size`.  Python's `%` on a
positive divisor returns a value in `[0, size)` even for negative hash values,
which is `Int.emod` exactly. -/
def Hash.calculate_position {α : Type} (s : Hash α) (hashvalue : Int) : Nat :=
  (hashvalue.emod (Int.ofNat s.size)).toNat

/-- `raise_if_not_acceptable_key` succeeds exactly on
`isinstance(key, (basestring, int))`; this predicate is that test. -/
def acceptable_key : PyKey → Bool
  | .int _ => true
  | .str _ => true
  | .other _ => false

/-- `_set_item_at_pos`: store the key and value at `position` and increment
`_used_slots` (unconditionally, even when the slot already held this key). -/
def set_item_at_pos {α : Type} (s : Hash α) (position : Nat) (key : PyKey) (value : Option α) :
    Hash α :=
  { s with
    keys := s.keys.set position (some key)
    values := s.values.set position value
    used_slots := s.used_slots + 1 }

/-- `_set_item`: if the slot at `position` is empty (`None`) or holds this very
key, place the pair there; otherwise recurse at `_probing position`.  The
source recursion is unbounded; `fuel` bounds it, `none` meaning the recursion
does not terminate within `fuel` steps. -/
def set_item {α : Type} (fuel : Nat) (s : Hash α) (position : Nat) (key : PyKey)
    (value : Option α) : Option (Hash α) :=
  match fuel with
  | 0 => none
  | fuel' + 1 =>
    let existing_key := s.keys.getD position none
    if existing_key = none ∨ existing_key = some key then
      some (set_item_at_pos s position key value)
    else
      set_item fuel' s (s.probing position) key value

/-- `_reposition`: for each `(key, value)` pair of the snapshot, in original
slot index order, if the key is not `None` re-insert it at
`_calculate_position(self.hash(key))` via `_set_item`. -/
def reposition {α : Type} (fuel : Nat) (s : Hash α) :
    List (Option PyKey × Option α) → Option (Hash α)
  | [] => some s
  | (none, _) :: rest => reposition fuel s rest
  | (some key, value) :: rest =>
    match set_item fuel s (s.calculate_position (s.hash key)) key value with
    | none => none
    | some s' => reposition fuel s' rest

/-- `_resize`: snapshot the arrays, quadruple `_size`, allocate fresh empty
arrays, zero both counters, then `_reposition` the snapshot. -/
def resize {α : Type} (fuel : Nat) (s : Hash α) : Option (Hash α) :=
  let old_keys := s.keys
  let old_values := s.values
  let s1 : Hash α :=
    { s with
      size := s.size * 4
      keys := List.replicate (s.size * 4) none
      values := List.replicate (s.size * 4) none
      used_slots := 0
      dummy_slots := 0 }
  reposition fuel s1 (old_keys.zip old_values)

/-- `put`: validate the key, expand if `should_expand`, then `_set_item` at
`_calculate_position(self.hash(key))`. -/
def put {α : Type} (fuel : Nat) (s : Hash α) (key : PyKey) (value : Option α) :
    Option (Except PyErr (Hash α)) :=
  if acceptable_key key then
    match (if should_expand s then resize fuel s else some s) with
    | none => none
    | some s1 =>
      match set_item fuel s1 (s1.calculate_position (s1.hash key)) key value with
      | none => none
      | some s2 => some (.ok s2)
  else some (.error .typeError)

/-- `_get_pos_recursively`: advance to `_probing position` first, then test the
slot: empty raises `KeyError`, a different key recurses, the queried key
returns the position.  Fuel bounds the unbounded source recursion. -/
def get_pos_recursively {α : Type} (s : Hash α) (fuel : Nat) (position : Nat) (key : PyKey) :
    Option (Except PyErr Nat) :=
  match fuel with
  | 0 => none
  | fuel' + 1 =>
    let new_position := s.probing position
    match s.keys.getD new_position none with
    | none => some (.error .keyError)
    | some tmp_key =>
      if tmp_key ≠ key then get_pos_recursively s fuel' new_position key
      else some (.ok new_position)

/-- `_get_pos`: validate the key, look at the initial position; empty raises
`KeyError`, a different key starts `_get_pos_recursively`, the queried key
returns the position. -/
def get_pos {α : Type} (s : Hash α) (fuel : Nat) (key : PyKey) : Option (Except PyErr Nat) :=
  if acceptable_key key then
    let position := s.calculate_position (s.hash key)
    match s.keys.getD position none with
    | none => some (.error .keyError)
    | some tmp_key =>
      if tmp_key ≠ key then get_pos_recursively s fuel position key
      else some (.ok position)
  else some (.error .typeError)

/-- `get`: `_get_pos` then read `self._values[position]`.  (The source's
`if position is None: return None` branch is dead: `_get_pos` either returns a
position or raises.) -/
def get {α : Type} (fuel : Nat) (s : Hash α) (key : PyKey) : Option (Except PyErr (Option α)) :=
  match get_pos s fuel key with
  | none => none
  | some (.error e) => some (.error e)
  | some (.ok position) => some (.ok (s.values.getD position none))

/-- `_delete_item`: reset the slot's key and value to `None` and increment
`_dummy_slots` (`_used_slots` is not touched). -/
def delete_item {α : Type} (s : Hash α) (position : Nat) : Hash α :=
  { s with
    keys := s.keys.set position none
    values := s.values.set position none
    dummy_slots := s.dummy_slots + 1 }

/-- `delete`: `_get_pos` then `_delete_item`.  (The source's
`if position is None: raise KeyError` branch is dead, as in `get`.) -/
def delete {α : Type} (fuel : Nat) (s : Hash α) (key : PyKey) :
    Option (Except PyErr (Hash α)) :=
  match get_pos s fuel key with
  | none => none
  | some (.error e) => some (.error e)
  | some (.ok position) => some (.ok (delete_item s position))

/-- One client operation against the map. -/
inductive Op (α : Type) where
  | put (key : PyKey) (value : Option α)
  | get (key : PyKey)
  | del (key : PyKey)

/-- Running one operation as a client would (catching exceptions): a raised
error leaves the state unchanged (`put` validates before mutating, and `get` /
`delete` mutate nothing before their probe search succeeds); `none` propagates
non-termination of the probe recursion. -/
def step {α : Type} (fuel : Nat) (s : Hash α) : Op α → Option (Hash α)
  | .put k v =>
    match put fuel s k v with
    | none => none
    | some (.error _) => some s
    | some (.ok s') => some s'
  | .get _ => some s
  | .del k =>
    match delete fuel s k with
    | none => none
    | some (.error _) => some s
    | some (.ok s') => some s'

/-- Running a sequence of operations from a state. -/
def run {α : Type} (fuel : Nat) (s : Hash α) : List (Op α) → Option (Hash α)
  | [] => some s
  | op :: rest =>
    match step fuel s op with
    | none => none
    | some s' => run fuel s' rest

/-- The key stored in slot `i` (the `None` sentinel for an empty slot, and
also for `i` out of range). -/
def slotKey {α : Type} (s : Hash α) (i : Nat) : Option PyKey :=
  s.keys.getD i none

/-- The value stored in slot `i`. -/
def slotVal {α : Type} (s : Hash α) (i : Nat) : Option α :=
  s.values.getD i none

/-! ### The probe chain and the reachability invariant -/

/-- The probe step as a function of the capacity alone:
`((5 + position) + 1) % size`, i.e. `Hash.probing` with the capacity made
explicit (the capacity is unchanged while a probe walk runs). -/
def probe (size position : Nat) : Nat := ((5 + position) + 1) % size

/-- The position reached after `n` probe steps from `p`. -/
def probeFrom (size p : Nat) : Nat → Nat
  | 0 => p
  | n + 1 => probe size (probeFrom size p n)

/-- The initial probe position of key `k` in state `s`:
`_calculate_position(self.hash(key))`. -/
def homePos {α : Type} (s : Hash α) (k : PyKey) : Nat :=
  s.calculate_position (s.hash k)

/-- Key `k` is reachable at slot `i`: some number `n < size` of probe steps
from `k`'s home position lands on `i`, and every earlier position on that walk
is occupied by a key different from `k` (so neither a lookup nor a placement
walk stops before `i`). -/
def Reach {α : Type} (s : Hash α) (k : PyKey) (i : Nat) : Prop :=
  ∃ n, n < s.size ∧ probeFrom s.size (homePos s k) n = i ∧
    ∀ m, m < n → ∃ k', slotKey s (probeFrom s.size (homePos s k) m) = some k' ∧ k' ≠ k

/-- The state invariant maintained by `put` (and broken by `delete`): the
arrays have length `size`, the capacity is positive, no key occupies two
distinct slots, and every stored key is reachable from its home position. -/
def Inv {α : Type} (s : Hash α) : Prop :=
  s.keys.length = s.size ∧ s.values.length = s.size ∧ 0 < s.size ∧
  (∀ i j k, slotKey s i = some k → slotKey s j = some k → i = j) ∧
  (∀ i k, slotKey s i = some k → Reach s k i)

/-- Key `k` is stored with value `v` in some slot of `s`. -/
def stored {α : Type} (s : Hash α) (k : PyKey) (v : Option α) : Prop :=
  ∃ q, slotKey s q = some k ∧ slotVal s q = v

/-- Whether an operation is a deletion. -/
def Op.isDel {α : Type} : Op α → Bool
  | .del _ => true
  | _ => false

/-- The DJB2 accumulation exactly as the spec words it: start with accumulator
5381 and, for each character of the text in order, set
`accumulator = 33 * accumulator + code_point(character)`, with no modulus
applied during accumulation. -/
def djb2_spec (s : String) : Nat :=
  s.data.foldl (fun accumulator c => 33 * accumulator + c.toNat) 5381

/-! ### Concrete operation sequences used to settle individual claims -/

/-- Two `put`s with the same key: an insert followed by an overwrite. -/
def c2_ops : List (Op Nat) := [.put (.int 0) (some 1), .put (.int 0) (some 2)]

/-- The state after `c2_ops` from a fresh map. -/
def c2_state : Hash Nat := (run 8 (mkHash Nat) c2_ops).getD (mkHash Nat)

/-- The first five of the six string insertions of the concrete scenario. -/
def c3_pre_ops : List (Op Nat) :=
  [.put (.str "a") (some 1), .put (.str "b") (some 2), .put (.str "c") (some 3),
   .put (.str "d") (some 4), .put (.str "e") (some 5)]

/-- All six string insertions of the concrete scenario. -/
def c3_ops : List (Op Nat) := c3_pre_ops ++ [.put (.str "f") (some 6)]

/-- The state after the first five insertions of the concrete scenario. -/
def c3_pre : Hash Nat := (run 8 (mkHash Nat) c3_pre_ops).getD (mkHash Nat)

/-- The state after all six insertions of the concrete scenario. -/
def c3_state : Hash Nat := (run 8 (mkHash Nat) c3_ops).getD (mkHash Nat)

/-- The state after a seventh insertion `put("g", 7)` following the scenario. -/
def c3_state7 : Hash Nat :=
  (run 8 (mkHash Nat) (c3_ops ++ [.put (.str "g") (some 7)])).getD (mkHash Nat)

/-- Six distinct integer insertions followed by three deletions. -/
def c4_ops : List (Op Nat) :=
  [.put (.int 0) (some 0), .put (.int 1) (some 1), .put (.int 2) (some 2),
   .put (.int 3) (some 3), .put (.int 4) (some 4), .put (.int 5) (some 5),
   .del (.int 0), .del (.int 1), .del (.int 2)]

/-- The state after `c4_ops` from a fresh map. -/
def c4_state : Hash Nat := (run 16 (mkHash Nat) c4_ops).getD (mkHash Nat)

/-- Keys 0 and 8 collide at slot 0 (both hash to 0 mod 8); deleting key 0
empties slot 0, after which re-putting key 8 stores it a second time. -/
def c5_ops : List (Op Nat) :=
  [.put (.int 0) (some 10), .put (.int 8) (some 11), .del (.int 0), .put (.int 8) (some 12)]

/-- The state after `c5_ops` from a fresh map. -/
def c5_state : Hash Nat := (run 16 (mkHash Nat) c5_ops).getD (mkHash Nat)

/-- `c5_ops` followed by two more insertions, bringing
`used_slots + dummy_slots` to 6 of 8 so that the next `put` grows the map. -/
def c8_pre_ops : List (Op Nat) :=
  c5_ops ++ [.put (.int 1) (some 21), .put (.int 2) (some 22)]

/-- The state after `c8_pre_ops`: key 8 is stored at slots 0 (value 12) and 6
(value 11), and the growth threshold is reached. -/
def c8_pre : Hash Nat := (run 64 (mkHash Nat) c8_pre_ops).getD (mkHash Nat)

/-- `c8_pre_ops` followed by the `put` that triggers growth. -/
def c8_ops : List (Op Nat) := c8_pre_ops ++ [.put (.int 3) (some 23)]

/-- The state after `c8_ops`: growth has run. -/
def c8_state : Hash Nat := (run 64 (mkHash Nat) c8_ops).getD (mkHash Nat)

/-- Keys 0 and 8 collide at slot 0; key 8 ends up at slot 6; deleting key 0
empties slot 0, which lies on key 8's probe chain. -/
def c9_ops : List (Op Nat) :=
  [.put (.int 0) (some 10), .put (.int 8) (some 11), .del (.int 0)]

/-- The state after `c9_ops` from a fresh map. -/
def c9_state : Hash Nat := (run 16 (mkHash Nat) c9_ops).getD (mkHash Nat)

/-- The state after `put(3, 42)` on a fresh map (used as a round-trip
witness). -/
def c1_state : Hash Nat :=
  match put 8 (mkHash Nat) (.int 3) (some 42) with
  | some (.ok s) => s
  | _ => mkHash Nat

/-- The state after `put(0, 5)` on a fresh map (used as a deletion witness:
key 0 sits at slot 0). -/
def c9w_state : Hash Nat :=
  match put 8 (mkHash Nat) (.int 0) (some 5) with
  | some (.ok s) => s
  | _ => mkHash Nat

/-- Whether a sequence of operations contains no deletion. -/
def no_delete {α : Type} (ops : List (Op α)) : Bool :=
  ops.all (fun op => !op.isDel)

/-- Two insertions with distinct keys (used as a uniqueness witness: key 8
collides with key 0 at slot 0 and is probed to slot 6). -/
def c5w_ops : List (Op Nat) := [.put (.int 0) (some 1), .put (.int 8) (some 2)]

/-- The state after `c5w_ops` from a fresh map. -/
def c5w_state : Hash Nat := (run 8 (mkHash Nat) c5w_ops).getD (mkHash Nat)

/-- Two insertions at distinct home slots (used as a growth witness). -/
def c8w_ops : List (Op Nat) := [.put (.int 0) (some 10), .put (.int 1) (some 11)]

/-- The state after `c8w_ops` from a fresh map. -/
def c8w_state : Hash Nat := (run 64 (mkHash Nat) c8w_ops).getD (mkHash Nat)

/-- The state `c8w_state` after one growth pass. -/
def c8w_resized : Hash Nat :=
  match resize 64 c8w_state with
  | some s => s
  | none => mkHash Nat

/-! ### Claim theorems on concrete runs -/

/-- C2: the claim fails on the code.  After `put(0, 1)` then `put(0, 2)` on a
fresh map, `get(0)` does return the second value, but `_used_slots` is 2, not
1: `_set_item_at_pos` increments the counter even when it overwrites a slot
that already holds the key, so `occupied_count` rises by 2 across the two
calls, contradicting its own role of counting used slots (only one slot is in
use). -/
theorem overwrite_increments_used_slots_twice :
    run 8 (mkHash Nat) c2_ops = some c2_state ∧
    get 8 c2_state (.int 0) = some (.ok (some 2)) ∧
    (mkHash Nat).used_slots = 0 ∧ c2_state.used_slots = 2 ∧
    c2_state.keys = [some (.int 0), none, none, none, none, none, none, none] :=
  ⟨rfl, rfl, rfl, rfl, rfl⟩

/-- C3, counterexample: the six insertions of the concrete scenario do NOT
trigger growth.  The pre-insert check of the 6th `put` sees
`occupied_count + deleted_count = 5` (the counts before the 6th key is
placed), and `5/8 = 0.625 < 0.70`, so the capacity after all six insertions is
still 8, not 32. -/
theorem six_puts_do_not_trigger_growth :
    run 8 (mkHash Nat) c3_pre_ops = some c3_pre ∧
    c3_pre.used_slots + c3_pre.dummy_slots = 5 ∧
    should_expand c3_pre = false ∧
    run 8 (mkHash Nat) c3_ops = some c3_state ∧
    c3_state.size = 8 ∧ c3_state.size ≠ 32 :=
  ⟨rfl, rfl, rfl, rfl, rfl, by decide⟩

/-- C3, amended: the six insertions leave the capacity at 8 (the 6th `put`'s
pre-insert check sees `5/8 < 0.70`, so no growth occurs during the scenario;
it is the 7th `put` that first finds `6/8 >= 0.70` and grows the capacity to
32), and `get("a")` through `get("f")` all succeed with their original
values. -/
theorem six_puts_scenario :
    run 8 (mkHash Nat) c3_ops = some c3_state ∧
    c3_state.size = 8 ∧
    get 8 c3_state (.str "a") = some (.ok (some 1)) ∧
    get 8 c3_state (.str "b") = some (.ok (some 2)) ∧
    get 8 c3_state (.str "c") = some (.ok (some 3)) ∧
    get 8 c3_state (.str "d") = some (.ok (some 4)) ∧
    get 8 c3_state (.str "e") = some (.ok (some 5)) ∧
    get 8 c3_state (.str "f") = some (.ok (some 6)) ∧
    should_expand c3_state = true ∧
    run 8 (mkHash Nat) (c3_ops ++ [.put (.str "g") (some 7)]) = some c3_state7 ∧
    c3_state7.size = 32 :=
  ⟨rfl, rfl, rfl, rfl, rfl, rfl, rfl, rfl, rfl, rfl, rfl⟩

/-- C4: the claim fails on the code.  Insert the six distinct integer keys
0–5 (all placed directly, counts: `used_slots = 6`, `dummy_slots = 0`), then
delete keys 0, 1 and 2: `delete` increments `_dummy_slots` but never
decrements `_used_slots`, so the state reaches
`occupied_count + deleted_count = 6 + 3 = 9 > 8 = capacity`, violating the
invariant `occupied_count + deleted_count <= capacity`. -/
theorem deletes_break_occupancy_invariant :
    run 16 (mkHash Nat) c4_ops = some c4_state ∧
    c4_state.size = 8 ∧ c4_state.used_slots = 6 ∧ c4_state.dummy_slots = 3 ∧
    ¬ c4_state.used_slots + c4_state.dummy_slots ≤ c4_state.size :=
  ⟨rfl, rfl, rfl, rfl, by decide⟩

/-- C5, counterexample: after `put(0, 10)`, `put(8, 11)` (key 8 collides at
slot 0 and is probed to slot 6), `delete(0)` and `put(8, 12)`, the second
`put(8, ·)` finds slot 0 EMPTY (the delete reset it) and stores key 8 there
without ever reaching its earlier copy: key 8 now occupies the two distinct
slots 0 and 6 simultaneously. -/
theorem delete_creates_duplicate_key :
    run 16 (mkHash Nat) c5_ops = some c5_state ∧
    slotKey c5_state 0 = some (.int 8) ∧
    slotKey c5_state 6 = some (.int 8) ∧
    (0 : Nat) ≠ 6 :=
  ⟨rfl, rfl, rfl, by decide⟩

/-- C6: the claim fails on the code.  `Hash.__init__(self, size=8,
hashfunction=custom_hash)` accepts both arguments and then ignores them: the
body assigns the literal 8 to `self._size` and `custom_hash` to `self.hash`.
Constructing with an explicit capacity 16 and an explicit hash function
`fun _ => 0` yields a container whose capacity is 8, not 16, and whose stored
hash function is `custom_hash`, not the supplied one. -/
theorem mkHash_ignores_its_arguments :
    (mkHash Nat 16 (fun _ => 0)).size = 8 ∧
    (mkHash Nat 16 (fun _ => 0)).size ≠ 16 ∧
    (mkHash Nat 16 (fun _ => 0)).hash = custom_hash ∧
    (mkHash Nat 16 (fun _ => 0)).hash ≠ (fun _ => (0 : Int)) := by
  refine ⟨rfl, by decide, rfl, fun h => ?_⟩
  have h5 := congrFun h (PyKey.int 5)
  simp [mkHash, custom_hash] at h5

/-- C9, counterexample: in `c9_state`, key 8 is present in the slot arrays (at
slot 6), yet `delete(8)` fails with `KeyNotFound`: the probe search for key 8
starts at slot 0, which the earlier `delete(0)` reset to EMPTY, and an EMPTY
slot terminates the search before key 8's slot is reached.  So `delete` on a
present key does not always clear its slot. -/
theorem delete_misses_present_key :
    run 16 (mkHash Nat) c9_ops = some c9_state ∧
    slotKey c9_state 6 = some (.int 8) ∧
    delete 16 c9_state (.int 8) = some (.error .keyError) ∧
    get 16 c9_state (.int 8) = some (.error .keyError) :=
  ⟨rfl, rfl, rfl, rfl⟩

/-- C8, counterexample: in `c8_pre` (a reachable state) key 8 occupies slots 0
(value 12, the most recent `put`) and 6 (stale value 11), and `get(8)` returns
12.  The 7th `put` finds the occupancy ratio `6/8 >= 0.70` and grows the map;
re-insertion walks the old slots in index order, so slot 0's pair `(8, 12)` is
placed first and slot 6's stale pair `(8, 11)` then overwrites it.  After
growth `get(8)` returns 11: a previously inserted live key is no longer
retrievable with its value. -/
theorem growth_reverts_value_after_delete :
    run 64 (mkHash Nat) c8_pre_ops = some c8_pre ∧
    should_expand c8_pre = true ∧
    get 64 c8_pre (.int 8) = some (.ok (some 12)) ∧
    run 64 (mkHash Nat) c8_ops = some c8_state ∧
    c8_state.size = 32 ∧
    get 64 c8_state (.int 8) = some (.ok (some 11)) ∧
    some (11 : Nat) ≠ some 12 :=
  ⟨rfl, rfl, rfl, rfl, rfl, rfl, by decide⟩

/-! ### C7: the hash function -/

theorem hash_loop_eq_foldl (l : List Char) (acc : Nat) :
    hash_loop acc l = l.foldl (fun a c => 33 * a + c.toNat) acc := by
  induction l generalizing acc with
  | nil => rfl
  | cons c rest ih => simp [hash_loop, List.foldl, ih]

/-- C7: `custom_hash` is a pure function (determinism is immediate in this
embedding), it is the identity on integer keys, and on every text key it is
exactly the spec's DJB2-style accumulation from 5381 with no modulus. -/
theorem custom_hash_matches_spec :
    (∀ n : Int, custom_hash (.int n) = n) ∧
    (∀ s : String, custom_hash (.str s) = Int.ofNat (djb2_spec s)) :=
  ⟨fun _ => rfl, fun s => by simp [custom_hash, djb2_spec, hash_loop_eq_foldl]⟩

/-! ### C10: key-type rejection -/

/-- C10: for every key that is neither an integer nor text, `put`, `get` and
`delete` all fail with `InvalidKeyKind` (`TypeError`), and the container is
left unchanged (the validation runs before any mutation). -/
theorem invalid_key_kind_rejected {α : Type} (fuel : Nat) (s : Hash α) (key : PyKey)
    (v : Option α) (h : acceptable_key key = false) :
    put fuel s key v = some (.error .typeError) ∧
    get fuel s key = some (.error .typeError) ∧
    delete fuel s key = some (.error .typeError) ∧
    step fuel s (.put key v) = some s ∧
    step fuel s (.del key) = some s := by
  have hput : put fuel s key v = some (.error .typeError) := by simp [put, h]
  have hpos : get_pos s fuel key = some (.error .typeError) := by simp [get_pos, h]
  refine ⟨hput, ?_, ?_, ?_, ?_⟩
  · simp [get, hpos]
  · simp [delete, hpos]
  · simp [step, hput]
  · simp [step, delete, hpos]

/-! ### List access helpers -/

theorem getD_set_self {β : Type} (l : List β) (i : Nat) (x d : β) (h : i < l.length) :
    (l.set i x).getD i d = x := by
  rw [List.getD_eq_getElem?_getD, List.getElem?_set_self h, Option.getD_some]

theorem getD_set_ne {β : Type} (l : List β) {i j : Nat} (x d : β) (h : i ≠ j) :
    (l.set i x).getD j d = l.getD j d := by
  rw [List.getD_eq_getElem?_getD, List.getElem?_set_ne h, ← List.getD_eq_getElem?_getD]

theorem getD_replicate_none {β : Type} (n i : Nat) :
    (List.replicate n (none : Option β)).getD i none = none := by
  rw [List.getD_eq_getElem?_getD, List.getElem?_replicate]
  split <;> rfl

/-! ### Probe chain lemmas -/

theorem probing_eq {α : Type} (s : Hash α) (p : Nat) : s.probing p = probe s.size p := rfl

theorem probeFrom_add (size p m n : Nat) :
    probeFrom size p (m + n) = probeFrom size (probeFrom size p m) n := by
  induction n with
  | zero => rfl
  | succ n ih =>
    show probe size (probeFrom size p (m + n)) = probe size (probeFrom size (probeFrom size p m) n)
    rw [ih]

theorem probeFrom_succ_front (size p n : Nat) :
    probeFrom size p (n + 1) = probeFrom size (probe size p) n := by
  have h := probeFrom_add size p 1 n
  rw [Nat.add_comm 1 n] at h
  exact h

theorem probe_lt (size p : Nat) (h : 0 < size) : probe size p < size := Nat.mod_lt _ h

theorem probeFrom_lt (size p n : Nat) (hs : 0 < size) (hp : p < size) :
    probeFrom size p n < size := by
  cases n with
  | zero => exact hp
  | succ n => exact probe_lt size _ hs

theorem calculate_position_lt {α : Type} (s : Hash α) (h : Int) (hs : 0 < s.size) :
    s.calculate_position h < s.size := by
  have hsz : (0 : Int) < (s.size : Int) := by exact_mod_cast hs
  have hlt : h.emod (s.size : Int) < (s.size : Int) := Int.emod_lt_of_pos h hsz
  have hnn : 0 ≤ h.emod (s.size : Int) := Int.emod_nonneg h (ne_of_gt hsz)
  unfold Hash.calculate_position
  have hcast : Int.ofNat s.size = (s.size : Int) := rfl
  rw [hcast]
  omega

/-! ### Characterization of placement (`_set_item`) -/

/-- A successful `_set_item` walk from `p` stops at the first position along
the probe chain whose slot is empty or already holds the key, and the result
state is `_set_item_at_pos` applied there. -/
theorem set_item_some {α : Type} (fuel : Nat) (s : Hash α) (p : Nat) (k : PyKey) (v : Option α)
    (s' : Hash α) (h : set_item fuel s p k v = some s') :
    ∃ n, n < fuel ∧ s' = set_item_at_pos s (probeFrom s.size p n) k v ∧
      (slotKey s (probeFrom s.size p n) = none ∨ slotKey s (probeFrom s.size p n) = some k) ∧
      ∀ m, m < n → ∃ k', slotKey s (probeFrom s.size p m) = some k' ∧ k' ≠ k := by
  induction fuel generalizing p with
  | zero => simp [set_item] at h
  | succ fuel ih =>
    rw [set_item] at h
    by_cases hc : s.keys.getD p none = none ∨ s.keys.getD p none = some k
    · rw [if_pos hc] at h
      refine ⟨0, Nat.succ_pos _, ?_, hc, fun m hm => absurd hm (Nat.not_lt_zero m)⟩
      exact (Option.some_injective _ h).symm
    · rw [if_neg hc] at h
      obtain ⟨n, hn, hs', hstop, hpre⟩ := ih (s.probing p) h
      rw [probing_eq, ← probeFrom_succ_front] at hs' hstop
      refine ⟨n + 1, Nat.succ_lt_succ hn, hs', hstop, ?_⟩
      intro m hm
      cases m with
      | zero =>
        push_neg at hc
        cases hk : s.keys.getD p none with
        | none => exact absurd hk hc.1
        | some k' =>
          refine ⟨k', hk, fun hkk => ?_⟩
          exact hc.2 (hkk ▸ hk)
      | succ m =>
        have := hpre m (Nat.lt_of_succ_lt_succ hm)
        rw [probing_eq, ← probeFrom_succ_front] at this
        exact this

/-- Fields other than the slot arrays and `_used_slots` are unchanged by a
successful placement, and `_used_slots` rises by exactly one. -/
theorem set_item_fields {α : Type} (fuel : Nat) (s : Hash α) (p : Nat) (k : PyKey)
    (v : Option α) (s' : Hash α) (h : set_item fuel s p k v = some s') :
    s'.size = s.size ∧ s'.hash = s.hash ∧ s'.keys.length = s.keys.length ∧
    s'.values.length = s.values.length ∧ s'.used_slots = s.used_slots + 1 ∧
    s'.dummy_slots = s.dummy_slots := by
  obtain ⟨n, _, hs', _, _⟩ := set_item_some fuel s p k v s' h
  subst hs'
  exact ⟨rfl, rfl, List.length_set .., List.length_set .., rfl, rfl⟩

/-- `_reposition` preserves the capacity, hash function, array lengths and
`_dummy_slots`. -/
theorem reposition_fields {α : Type} (fuel : Nat) (pairs : List (Option PyKey × Option α))
    (s s' : Hash α) (h : reposition fuel s pairs = some s') :
    s'.size = s.size ∧ s'.hash = s.hash ∧ s'.keys.length = s.keys.length ∧
    s'.values.length = s.values.length ∧ s'.dummy_slots = s.dummy_slots := by
  induction pairs generalizing s with
  | nil => cases h; exact ⟨rfl, rfl, rfl, rfl, rfl⟩
  | cons pr rest ih =>
    match pr with
    | (none, v) => exact ih s h
    | (some k, v) =>
      rw [reposition] at h
      cases hset : set_item fuel s (s.calculate_position (s.hash k)) k v with
      | none => rw [hset] at h; cases h
      | some s₁ =>
        rw [hset] at h
        obtain ⟨h1, h2, h3, h4, h5⟩ := ih s₁ h
        obtain ⟨g1, g2, g3, g4, _, g6⟩ := set_item_fields fuel s _ k v s₁ hset
        exact ⟨h1.trans g1, h2.trans g2, h3.trans g3, h4.trans g4, h5.trans g6⟩

/-- `_resize` quadruples the capacity (the re-insertion pass never re-checks
the growth threshold, so the capacity is multiplied by exactly 4), keeps the
hash function, leaves the new arrays at the new length, and leaves
`_dummy_slots` at 0. -/
theorem resize_fields {α : Type} (fuel : Nat) (s s' : Hash α) (h : resize fuel s = some s') :
    s'.size = s.size * 4 ∧ s'.hash = s.hash ∧ s'.keys.length = s'.size ∧
    s'.values.length = s'.size ∧ s'.dummy_slots = 0 := by
  obtain ⟨h1, h2, h3, h4, h5⟩ := reposition_fields fuel _ _ s' h
  simp only [List.length_replicate] at h3 h4
  exact ⟨h1, h2, h3.trans h1.symm, h4.trans h1.symm, h5⟩

/-! ### Characterization of the lookup walk (`_get_pos`) -/

theorem slotKey_eq_getElem {α : Type} (s : Hash α) (i : Nat) :
    slotKey s i = s.keys[i]?.getD none :=
  List.getD_eq_getElem?_getD ..

theorem get_pos_rec_of_found {α : Type} (s : Hash α) (k : PyKey) :
    ∀ n fuel p, n < fuel →
      slotKey s (probeFrom s.size p (n + 1)) = some k →
      (∀ m, 0 < m → m ≤ n → ∃ k', slotKey s (probeFrom s.size p m) = some k' ∧ k' ≠ k) →
      get_pos_recursively s fuel p k = some (.ok (probeFrom s.size p (n + 1))) := by
  intro n
  induction n with
  | zero =>
    intro fuel p hn hfound _
    match fuel, hn with
    | fuel + 1, _ =>
      have h1 : s.keys.getD (s.probing p) none = some k := hfound
      rw [get_pos_recursively]
      simp only [h1]
      rw [if_neg (fun hne => hne rfl)]
      rfl
  | succ n ih =>
    intro fuel p hn hfound hpre
    match fuel, hn with
    | fuel + 1, hn =>
      obtain ⟨k₁, hk₁, hk₁ne⟩ := hpre 1 Nat.one_pos (by omega)
      have h1 : s.keys.getD (s.probing p) none = some k₁ := hk₁
      rw [get_pos_recursively]
      simp only [h1]
      rw [if_pos hk₁ne]
      have hres := ih fuel (probe s.size p) (by omega)
        (by rw [← probeFrom_succ_front]; exact hfound)
        (fun m hm hle => by
          rw [← probeFrom_succ_front]
          exact hpre (m + 1) (by omega) (by omega))
      rw [probing_eq, hres, ← probeFrom_succ_front]

theorem get_pos_rec_of_empty {α : Type} (s : Hash α) (k : PyKey) :
    ∀ n fuel p, n < fuel →
      slotKey s (probeFrom s.size p (n + 1)) = none →
      (∀ m, 0 < m → m ≤ n → ∃ k', slotKey s (probeFrom s.size p m) = some k' ∧ k' ≠ k) →
      get_pos_recursively s fuel p k = some (.error .keyError) := by
  intro n
  induction n with
  | zero =>
    intro fuel p hn hempty _
    match fuel, hn with
    | fuel + 1, _ =>
      have h1 : s.keys.getD (s.probing p) none = none := hempty
      rw [get_pos_recursively]
      simp only [h1]
  | succ n ih =>
    intro fuel p hn hempty hpre
    match fuel, hn with
    | fuel + 1, hn =>
      obtain ⟨k₁, hk₁, hk₁ne⟩ := hpre 1 Nat.one_pos (by omega)
      have h1 : s.keys.getD (s.probing p) none = some k₁ := hk₁
      rw [get_pos_recursively]
      simp only [h1]
      rw [if_pos hk₁ne, probing_eq]
      exact ih fuel (probe s.size p) (by omega)
        (by rw [← probeFrom_succ_front]; exact hempty)
        (fun m hm hle => by
          rw [← probeFrom_succ_front]
          exact hpre (m + 1) (by omega) (by omega))

/-- Completeness of `_get_pos`: if the probe chain of `k` reaches a slot
holding `k` at step `n ≤ fuel` with every earlier slot occupied by a
different key, the lookup returns that position. -/
theorem get_pos_of_found {α : Type} (s : Hash α) (fuel : Nat) (k : PyKey) (n : Nat)
    (hacc : acceptable_key k = true) (hn : n ≤ fuel)
    (hfound : slotKey s (probeFrom s.size (homePos s k) n) = some k)
    (hpre : ∀ m, m < n →
      ∃ k', slotKey s (probeFrom s.size (homePos s k) m) = some k' ∧ k' ≠ k) :
    get_pos s fuel k = some (.ok (probeFrom s.size (homePos s k) n)) := by
  cases n with
  | zero =>
    have h0 : s.keys.getD (s.calculate_position (s.hash k)) none = some k := hfound
    rw [get_pos, if_pos hacc]
    simp only [h0]
    rw [if_neg (fun hne => hne rfl)]
    rfl
  | succ n =>
    obtain ⟨k₀, hk₀, hk₀ne⟩ := hpre 0 (by omega)
    have h0 : s.keys.getD (s.calculate_position (s.hash k)) none = some k₀ := hk₀
    rw [get_pos, if_pos hacc]
    simp only [h0]
    rw [if_pos hk₀ne]
    exact get_pos_rec_of_found s k n fuel (homePos s k) (by omega) hfound
      (fun m hm hle => hpre m (by omega))

/-- Completeness of the failure case of `_get_pos`: if the probe chain of `k`
reaches an EMPTY slot at step `n ≤ fuel` with every earlier slot occupied by a
different key, the lookup raises `KeyError`. -/
theorem get_pos_of_empty {α : Type} (s : Hash α) (fuel : Nat) (k : PyKey) (n : Nat)
    (hacc : acceptable_key k = true) (hn : n ≤ fuel)
    (hempty : slotKey s (probeFrom s.size (homePos s k) n) = none)
    (hpre : ∀ m, m < n →
      ∃ k', slotKey s (probeFrom s.size (homePos s k) m) = some k' ∧ k' ≠ k) :
    get_pos s fuel k = some (.error .keyError) := by
  cases n with
  | zero =>
    have h0 : s.keys.getD (s.calculate_position (s.hash k)) none = none := hempty
    rw [get_pos, if_pos hacc]
    simp only [h0]
  | succ n =>
    obtain ⟨k₀, hk₀, hk₀ne⟩ := hpre 0 (by omega)
    have h0 : s.keys.getD (s.calculate_position (s.hash k)) none = some k₀ := hk₀
    rw [get_pos, if_pos hacc]
    simp only [h0]
    rw [if_pos hk₀ne]
    exact get_pos_rec_of_empty s k n fuel (homePos s k) (by omega) hempty
      (fun m hm hle => hpre m (by omega))

theorem get_pos_rec_sound {α : Type} (s : Hash α) (k : PyKey) :
    ∀ fuel p i, get_pos_recursively s fuel p k = some (.ok i) →
      ∃ n, n < fuel ∧ i = probeFrom s.size p (n + 1) ∧ slotKey s i = some k ∧
        ∀ m, 0 < m → m ≤ n → ∃ k', slotKey s (probeFrom s.size p m) = some k' ∧ k' ≠ k := by
  intro fuel
  induction fuel with
  | zero => intro p i h; simp [get_pos_recursively] at h
  | succ fuel ih =>
    intro p i h
    rw [get_pos_recursively] at h
    split at h
    · simp at h
    · next tk heq =>
      split at h
      · next htk =>
        obtain ⟨n, hn, hi, hk2, hpre⟩ := ih (s.probing p) i h
        rw [probing_eq, ← probeFrom_succ_front] at hi
        refine ⟨n + 1, by omega, hi, hk2, ?_⟩
        intro m hm hle
        match m, hm with
        | 1, _ => exact ⟨tk, heq, htk⟩
        | m + 2, _ =>
          have h2 := hpre (m + 1) (by omega) (by omega)
          rw [probing_eq, ← probeFrom_succ_front] at h2
          exact h2
      · next htk =>
        have htk' : tk = k := not_not.mp htk
        subst htk'
        simp only [Option.some.injEq, Except.ok.injEq] at h
        refine ⟨0, by omega, ?_, ?_, fun m hm hle => by omega⟩
        · rw [← h]; rfl
        · rw [← h]; exact heq

/-- Soundness of `_get_pos`: a returned position is the first one along the
probe chain of `k` holding `k`, every earlier one being occupied by a
different key, and the key passed validation. -/
theorem get_pos_sound {α : Type} (s : Hash α) (fuel : Nat) (k : PyKey) (i : Nat)
    (h : get_pos s fuel k = some (.ok i)) :
    acceptable_key k = true ∧
      ∃ n, n ≤ fuel ∧ i = probeFrom s.size (homePos s k) n ∧ slotKey s i = some k ∧
        ∀ m, m < n →
          ∃ k', slotKey s (probeFrom s.size (homePos s k) m) = some k' ∧ k' ≠ k := by
  rw [get_pos] at h
  split at h
  · next hacc =>
    refine ⟨hacc, ?_⟩
    simp only [ne_eq] at h
    split at h
    · simp at h
    · next tk heq =>
      split at h
      · next htk =>
        obtain ⟨n, hn, hi, hk2, hpre⟩ := get_pos_rec_sound s k fuel _ i h
        refine ⟨n + 1, by omega, hi, hk2, ?_⟩
        intro m hm
        match m with
        | 0 => exact ⟨tk, heq, htk⟩
        | m + 1 => exact hpre (m + 1) (by omega) (by omega)
      · next htk =>
        have htk' : tk = k := not_not.mp htk
        subst htk'
        simp only [Option.some.injEq, Except.ok.injEq] at h
        refine ⟨0, by omega, ?_, ?_, fun m hm => absurd hm (by omega)⟩
        · rw [← h]; rfl
        · rw [← h]; exact heq
  · simp at h

/-- Witness for C10 at the float key `3.14` (modelled by `PyKey.other 0`) on a
fresh map. -/
theorem invalid_key_kind_rejected_witness :
    acceptable_key (.other 0) = false ∧
    put 8 (mkHash Nat) (.other 0) (some 1) = some (.error .typeError) ∧
    get 8 (mkHash Nat) (.other 0) = some (.error .typeError) ∧
    delete 8 (mkHash Nat) (.other 0) = some (.error .typeError) :=
  ⟨rfl,
    (invalid_key_kind_rejected 8 (mkHash Nat) (.other 0) (some 1) rfl).1,
    (invalid_key_kind_rejected 8 (mkHash Nat) (.other 0) (some 1) rfl).2.1,
    (invalid_key_kind_rejected 8 (mkHash Nat) (.other 0) (some 1) rfl).2.2.1⟩

/-! ### C1: round-trip, and C9 amended: deletion through a successful search -/

/-- Decomposition of a successful `put`: the key passed validation, the
growth pre-check produced some intermediate state `s₁`, and the placement walk
from the key's home position in `s₁` succeeded. -/
theorem put_some_ok {α : Type} (fuel : Nat) (s : Hash α) (k : PyKey) (v : Option α)
    (s₂ : Hash α) (hput : put fuel s k v = some (.ok s₂)) :
    acceptable_key k = true ∧
      ∃ s₁, (if should_expand s then resize fuel s else some s) = some s₁ ∧
        set_item fuel s₁ (s₁.calculate_position (s₁.hash k)) k v = some s₂ := by
  rw [put] at hput
  split at hput
  · next hacc =>
    refine ⟨hacc, ?_⟩
    split at hput
    · simp at hput
    · next s₁ heq1 =>
      split at hput
      · simp at hput
      · next s₂' heq2 =>
        simp only [Option.some.injEq, Except.ok.injEq] at hput
        exact ⟨s₁, heq1, hput ▸ heq2⟩
  · simp at hput

/-- C1: for every accepted key K and value V, a `put(K, V)` whose probe walks
terminate (it returns a state rather than recursing forever) is followed by a
successful `get(K)` returning V on the resulting container: the lookup walks
the same probe chain the placement walked, whose earlier slots still hold
other keys and whose final slot now holds K with V. -/
theorem put_get_roundtrip {α : Type} (fuel : Nat) (s : Hash α) (k : PyKey) (v : Option α)
    (s₂ : Hash α) (hkeys : s.keys.length = s.size) (hvals : s.values.length = s.size)
    (hsize : 0 < s.size) (hput : put fuel s k v = some (.ok s₂)) :
    get fuel s₂ k = some (.ok v) := by
  obtain ⟨hacc, s₁, hs₁, hset⟩ := put_some_ok fuel s k v s₂ hput
  have hfacts : s₁.keys.length = s₁.size ∧ s₁.values.length = s₁.size ∧ 0 < s₁.size := by
    by_cases hexp : should_expand s = true
    · rw [if_pos hexp] at hs₁
      obtain ⟨h1, _, h3, h4, _⟩ := resize_fields fuel s s₁ hs₁
      exact ⟨h3, h4, by omega⟩
    · rw [if_neg hexp] at hs₁
      cases hs₁
      exact ⟨hkeys, hvals, hsize⟩
  obtain ⟨hk1, hv1, hs1pos⟩ := hfacts
  obtain ⟨n, hn, hs₂eq, hstop, hpre⟩ := set_item_some fuel s₁ _ k v s₂ hset
  subst hs₂eq
  have hp₀lt : s₁.calculate_position (s₁.hash k) < s₁.size :=
    calculate_position_lt s₁ _ hs1pos
  have hqlt : probeFrom s₁.size (s₁.calculate_position (s₁.hash k)) n < s₁.size :=
    probeFrom_lt _ _ n hs1pos hp₀lt
  have hfound :
      slotKey (set_item_at_pos s₁ (probeFrom s₁.size (s₁.calculate_position (s₁.hash k)) n) k v)
        (probeFrom s₁.size (s₁.calculate_position (s₁.hash k)) n) = some k := by
    simp only [slotKey, set_item_at_pos]
    exact getD_set_self s₁.keys _ (some k) none (by omega)
  have hpre' : ∀ m, m < n →
      ∃ k', slotKey
          (set_item_at_pos s₁ (probeFrom s₁.size (s₁.calculate_position (s₁.hash k)) n) k v)
          (probeFrom s₁.size (s₁.calculate_position (s₁.hash k)) m) = some k' ∧ k' ≠ k := by
    intro m hm
    obtain ⟨k', hk', hk'ne⟩ := hpre m hm
    have hne : probeFrom s₁.size (s₁.calculate_position (s₁.hash k)) n ≠
        probeFrom s₁.size (s₁.calculate_position (s₁.hash k)) m := by
      intro hcontra
      rw [hcontra] at hstop
      cases hstop with
      | inl hempty => rw [hempty] at hk'; cases hk'
      | inr hsame => exact hk'ne (Option.some_injective _ (hk'.symm.trans hsame))
    refine ⟨k', ?_, hk'ne⟩
    simp only [slotKey, set_item_at_pos]
    rw [getD_set_ne s₁.keys (some k) none hne]
    exact hk'
  have hgp := get_pos_of_found
    (set_item_at_pos s₁ (probeFrom s₁.size (s₁.calculate_position (s₁.hash k)) n) k v)
    fuel k n hacc (by omega) hfound hpre'
  simp only [get, hgp]
  have hvalsproj :
      (set_item_at_pos s₁ (probeFrom s₁.size (s₁.calculate_position (s₁.hash k)) n) k v).values
        = s₁.values.set (probeFrom s₁.size (s₁.calculate_position (s₁.hash k)) n) v := rfl
  have hsizeproj :
      (set_item_at_pos s₁ (probeFrom s₁.size (s₁.calculate_position (s₁.hash k)) n) k v).size
        = s₁.size := rfl
  have hhomeproj :
      homePos (set_item_at_pos s₁ (probeFrom s₁.size (s₁.calculate_position (s₁.hash k)) n) k v) k
        = s₁.calculate_position (s₁.hash k) := rfl
  rw [hvalsproj, hsizeproj, hhomeproj, getD_set_self s₁.values _ v none (by omega)]

/-- Witness for C1: `put(3, 42)` on a fresh map followed by `get(3)` returns
42. -/
theorem put_get_roundtrip_witness :
    (mkHash Nat).keys.length = (mkHash Nat).size ∧
    (mkHash Nat).values.length = (mkHash Nat).size ∧
    0 < (mkHash Nat).size ∧
    put 8 (mkHash Nat) (.int 3) (some 42) = some (.ok c1_state) ∧
    get 8 c1_state (.int 3) = some (.ok (some 42)) :=
  ⟨rfl, rfl, by decide, rfl,
    put_get_roundtrip 8 (mkHash Nat) (.int 3) (some 42) c1_state rfl rfl (by decide) rfl⟩

/-- C9, amended: when the probe search for K returns a result—rather than
recursing forever—`delete(K)` behaves as follows: if the search located K at
slot `i` (which, by the counterexample, need not happen for every present key),
the slot's key and value are reset to the EMPTY sentinel, `deleted_count`
rises by exactly 1, and a subsequent `get(K)` fails with `KeyNotFound`; if the
search reached an EMPTY slot first, `delete(K)` fails with `KeyNotFound`
(likewise for an invalid key and `InvalidKeyKind`). -/
theorem delete_spec {α : Type} (fuel : Nat) (s : Hash α) (k : PyKey) (r : Except PyErr Nat)
    (hres : get_pos s fuel k = some r) :
    match r with
    | .ok i =>
        delete fuel s k = some (.ok (delete_item s i)) ∧
        slotKey (delete_item s i) i = none ∧
        slotVal (delete_item s i) i = none ∧
        (delete_item s i).dummy_slots = s.dummy_slots + 1 ∧
        get fuel (delete_item s i) k = some (.error .keyError)
    | .error e => delete fuel s k = some (.error e) := by
  cases r with
  | error e =>
    show delete fuel s k = some (.error e)
    rw [delete, hres]
  | ok i =>
    obtain ⟨hacc, n, hn, hi, hk, hpre⟩ := get_pos_sound s fuel k i hres
    have hkeyclear : slotKey (delete_item s i) i = none := by
      show (s.keys.set i none).getD i none = none
      rw [List.getD_eq_getElem?_getD, List.getElem?_set, if_pos rfl]
      split <;> rfl
    have hvalclear : slotVal (delete_item s i) i = none := by
      show (s.values.set i none).getD i none = none
      rw [List.getD_eq_getElem?_getD, List.getElem?_set, if_pos rfl]
      split <;> rfl
    refine ⟨?_, hkeyclear, hvalclear, rfl, ?_⟩
    · show delete fuel s k = some (.ok (delete_item s i))
      rw [delete, hres]
    · have hempty : slotKey (delete_item s i)
          (probeFrom (delete_item s i).size (homePos (delete_item s i) k) n) = none := by
        have : probeFrom (delete_item s i).size (homePos (delete_item s i) k) n = i := hi.symm
        rw [this]
        exact hkeyclear
      have hpre' : ∀ m, m < n → ∃ k',
          slotKey (delete_item s i)
            (probeFrom (delete_item s i).size (homePos (delete_item s i) k) m) = some k' ∧
          k' ≠ k := by
        intro m hm
        obtain ⟨k', hk', hk'ne⟩ := hpre m hm
        have hne : i ≠ probeFrom s.size (homePos s k) m := by
          intro hcontra
          rw [← hcontra] at hk'
          rw [hk] at hk'
          exact hk'ne (Option.some_injective _ hk'.symm)
        refine ⟨k', ?_, hk'ne⟩
        show (s.keys.set i none).getD (probeFrom s.size (homePos s k) m) none = some k'
        rw [getD_set_ne s.keys none none hne]
        exact hk'
      have hgp := get_pos_of_empty (delete_item s i) fuel k n hacc hn hempty hpre'
      simp only [get, hgp]

/-- Witness for C9's amended theorem: on a fresh map after `put(0, 5)`, the
probe search for key 0 returns slot 0, and `delete(0)` clears that slot,
bumps `deleted_count` to 1, and a following `get(0)` raises `KeyError`. -/
theorem delete_spec_witness :
    get_pos c9w_state 8 (.int 0) = some (.ok 0) ∧
    (delete 8 c9w_state (.int 0) = some (.ok (delete_item c9w_state 0)) ∧
      slotKey (delete_item c9w_state 0) 0 = none ∧
      slotVal (delete_item c9w_state 0) 0 = none ∧
      (delete_item c9w_state 0).dummy_slots = c9w_state.dummy_slots + 1 ∧
      get 8 (delete_item c9w_state 0) (.int 0) = some (.error .keyError)) :=
  ⟨rfl, delete_spec 8 c9w_state (.int 0) (.ok 0) rfl⟩

/-! ### The probe chain visits distinct positions up to its first stop -/

theorem probeFrom_cycle (size p a d : Nat) (hd : 0 < d)
    (hcyc : probeFrom size p (a + d) = probeFrom size p a) :
    ∀ j, probeFrom size p (a + j) = probeFrom size p (a + j % d) := by
  intro j
  induction j using Nat.strong_induction_on with
  | _ j ih =>
    by_cases hj : j < d
    · rw [Nat.mod_eq_of_lt hj]
    · push_neg at hj
      have e1 : probeFrom size p (a + j) = probeFrom size p (a + (j - d)) := by
        have h1 : a + j = (a + d) + (j - d) := by omega
        rw [h1, probeFrom_add, hcyc, ← probeFrom_add]
      refine e1.trans ((ih (j - d) (by omega)).trans ?_)
      rw [← Nat.mod_eq_sub_mod hj]

/-- If the walk from `p` first satisfies the stop predicate at step `n`, the
positions visited at steps `0..n` are pairwise distinct (a repeat would make
the chain periodic and place the stopping position at an earlier,
non-stopping step). -/
theorem first_stop_distinct (size p : Nat) (P : Nat → Prop) (n : Nat)
    (hstop : P (probeFrom size p n)) (hpre : ∀ m, m < n → ¬ P (probeFrom size p m)) :
    ∀ a, a ≤ n → ∀ b, b ≤ n → probeFrom size p a = probeFrom size p b → a = b := by
  suffices hs : ∀ a b, a < b → b ≤ n → probeFrom size p a = probeFrom size p b → False by
    intro a ha b hb heq
    rcases Nat.lt_trichotomy a b with h | h | h
    · exact (hs a b h hb heq).elim
    · exact h
    · exact (hs b a h ha heq.symm).elim
  intro a b hab hbn heq
  have hd : 0 < b - a := by omega
  have hcyc : probeFrom size p (a + (b - a)) = probeFrom size p a := by
    have hb : a + (b - a) = b := by omega
    rw [hb]
    exact heq.symm
  have hper := probeFrom_cycle size p a (b - a) hd hcyc (n - a)
  have hn1 : a + (n - a) = n := by omega
  rw [hn1] at hper
  have hrlt : (n - a) % (b - a) < b - a := Nat.mod_lt _ hd
  have hlt : a + (n - a) % (b - a) < n := by omega
  exact hpre _ hlt (hper ▸ hstop)

/-- Consequence: the first stop happens within `size` steps, because the
visited positions are distinct values below `size`. -/
theorem first_stop_lt_size (size p n : Nat) (hsize : 0 < size) (hp : p < size)
    (P : Nat → Prop) (hstop : P (probeFrom size p n))
    (hpre : ∀ m, m < n → ¬ P (probeFrom size p m)) :
    n < size := by
  have hinj : Function.Injective
      (fun a : Fin (n + 1) =>
        (⟨probeFrom size p a.1, probeFrom_lt size p a.1 hsize hp⟩ : Fin size)) := by
    intro a b hab
    have hval : probeFrom size p a.1 = probeFrom size p b.1 := congrArg Fin.val hab
    have ha : a.1 ≤ n := by have := a.isLt; omega
    have hb : b.1 ≤ n := by have := b.isLt; omega
    exact Fin.ext (first_stop_distinct size p P n hstop hpre a.1 ha b.1 hb hval)
  have hcard := Fintype.card_le_of_injective _ hinj
  simp only [Fintype.card_fin] at hcard
  omega

/-! ### Placement preserves the invariant -/

/-- Placing key `k` at the first stop `q` of its probe walk preserves the
invariant: the walk's earlier slots hold other keys (so `k` stays reachable
and unique), and filling `q` cannot break any other key's witness chain. -/
theorem place_preserves {α : Type} (s : Hash α) (k : PyKey) (v : Option α) (n q : Nat)
    (hInv : Inv s) (hq : probeFrom s.size (homePos s k) n = q)
    (hstop : slotKey s q = none ∨ slotKey s q = some k)
    (hpre : ∀ m, m < n →
      ∃ k', slotKey s (probeFrom s.size (homePos s k) m) = some k' ∧ k' ≠ k) :
    Inv (set_item_at_pos s q k v) ∧ n < s.size ∧ q < s.size := by
  obtain ⟨hkl, hvl, hsz, huniq, hreach⟩ := hInv
  have hp₀ : homePos s k < s.size := calculate_position_lt s _ hsz
  have hnotstop : ∀ m, m < n →
      ¬ (slotKey s (probeFrom s.size (homePos s k) m) = none ∨
         slotKey s (probeFrom s.size (homePos s k) m) = some k) := by
    intro m hm hor
    obtain ⟨k', hk', hk'ne⟩ := hpre m hm
    cases hor with
    | inl he => rw [he] at hk'; cases hk'
    | inr he => rw [he] at hk'; exact hk'ne (Option.some_injective _ hk'.symm)
  have hnlt : n < s.size :=
    first_stop_lt_size s.size (homePos s k) n hsz hp₀
      (fun i => slotKey s i = none ∨ slotKey s i = some k)
      (by rw [hq]; exact hstop) hnotstop
  have hqlt : q < s.size := hq ▸ probeFrom_lt s.size _ n hsz hp₀
  have hskq : slotKey (set_item_at_pos s q k v) q = some k := by
    simp only [slotKey, set_item_at_pos]
    exact getD_set_self s.keys q (some k) none (by omega)
  have hskne : ∀ i, i ≠ q → slotKey (set_item_at_pos s q k v) i = slotKey s i := by
    intro i hi
    simp only [slotKey, set_item_at_pos]
    exact getD_set_ne s.keys (some k) none (fun he => hi he.symm)
  have honly : ∀ j, slotKey s j = some k → j = q := by
    intro j hj
    obtain ⟨nj, hnjlt, hnjeq, hnjpre⟩ := hreach j k hj
    rcases Nat.lt_trichotomy nj n with hlt | heqn | hgt
    · obtain ⟨k', hk', hk'ne⟩ := hpre nj hlt
      rw [hnjeq, hj] at hk'
      exact absurd (Option.some_injective _ hk'.symm) hk'ne
    · rw [heqn, hq] at hnjeq
      exact hnjeq.symm
    · obtain ⟨k'', hk'', hk''ne⟩ := hnjpre n hgt
      rw [hq] at hk''
      cases hstop with
      | inl he => rw [he] at hk''; cases hk''
      | inr he => rw [he] at hk''; exact absurd (Option.some_injective _ hk''.symm) hk''ne
  refine ⟨⟨?_, ?_, ?_, ?_, ?_⟩, hnlt, hqlt⟩
  · simp only [set_item_at_pos, List.length_set]
    exact hkl
  · simp only [set_item_at_pos, List.length_set]
    exact hvl
  · exact hsz
  · intro i j k₀ hi hj
    by_cases hiq : i = q <;> by_cases hjq : j = q
    · rw [hiq, hjq]
    · rw [hiq] at hi
      have hk₀ : k₀ = k := (Option.some_injective _ (hskq ▸ hi : some k = some k₀)).symm
      rw [hskne j hjq] at hj
      rw [hk₀] at hj
      exact absurd (honly j hj) hjq
    · rw [hjq] at hj
      have hk₀ : k₀ = k := (Option.some_injective _ (hskq ▸ hj : some k = some k₀)).symm
      rw [hskne i hiq] at hi
      rw [hk₀] at hi
      exact absurd (honly i hi) hiq
    · rw [hskne i hiq] at hi
      rw [hskne j hjq] at hj
      exact huniq i j k₀ hi hj
  · intro i k₀ hik₀
    by_cases hiq : i = q
    · subst hiq
      have hk₀ : k₀ = k := (Option.some_injective _ (hskq ▸ hik₀ : some k = some k₀)).symm
      subst hk₀
      refine ⟨n, hnlt, hq, ?_⟩
      intro m hm
      obtain ⟨k', hk', hk'ne⟩ := hpre m hm
      have hmne : probeFrom s.size (homePos s k₀) m ≠ i := by
        intro hcontra
        rw [← hq] at hcontra
        have := first_stop_distinct s.size (homePos s k₀)
          (fun x => slotKey s x = none ∨ slotKey s x = some k₀) n
          (by rw [hq]; exact hstop) hnotstop m (by omega) n (by omega) hcontra
        omega
      refine ⟨k', ?_, hk'ne⟩
      rw [hskne _ (by rw [← hq] at hmne ⊢; exact hmne)]
      · exact hk'
    · have hik₀' : slotKey s i = some k₀ := by rw [← hskne i hiq]; exact hik₀
      have hk₀ne : k₀ ≠ k := by
        intro he
        rw [he] at hik₀'
        exact hiq (honly i hik₀')
      obtain ⟨n₀, hn₀lt, hn₀eq, hn₀pre⟩ := hreach i k₀ hik₀'
      refine ⟨n₀, hn₀lt, hn₀eq, ?_⟩
      intro m hm
      obtain ⟨k', hk', hk'ne⟩ := hn₀pre m hm
      by_cases hmq : probeFrom s.size (homePos s k₀) m = q
      · refine ⟨k, ?_, fun he => hk₀ne he.symm⟩
        show slotKey (set_item_at_pos s q k v) (probeFrom s.size (homePos s k₀) m) = some k
        rw [hmq]
        exact hskq
      · refine ⟨k', ?_, hk'ne⟩
        show slotKey (set_item_at_pos s q k v) (probeFrom s.size (homePos s k₀) m) = some k'
        rw [hskne _ hmq]
        exact hk'

/-- Packaging `set_item_some` with `place_preserves`: a successful placement
from the key's home position preserves the invariant, stores the pair at some
in-range slot `q` (previously empty or holding the same key), and leaves every
other slot unchanged. -/
theorem set_item_invariant {α : Type} (fuel : Nat) (s : Hash α) (k : PyKey) (v : Option α)
    (s' : Hash α) (hInv : Inv s)
    (hset : set_item fuel s (homePos s k) k v = some s') :
    Inv s' ∧ s'.size = s.size ∧ s'.hash = s.hash ∧ s'.dummy_slots = s.dummy_slots ∧
    ∃ q, q < s.size ∧ (slotKey s q = none ∨ slotKey s q = some k) ∧
      slotKey s' q = some k ∧ slotVal s' q = v ∧
      ∀ i, i ≠ q → slotKey s' i = slotKey s i ∧ slotVal s' i = slotVal s i := by
  obtain ⟨n, hn, hs'eq, hstop, hpre⟩ := set_item_some fuel s (homePos s k) k v s' hset
  obtain ⟨hInv', hnlt, hqlt⟩ := place_preserves s k v n _ hInv rfl hstop hpre
  have hkl := hInv.1
  have hvl := hInv.2.1
  subst hs'eq
  refine ⟨hInv', rfl, rfl, rfl, probeFrom s.size (homePos s k) n, hqlt, hstop, ?_, ?_, ?_⟩
  · simp only [slotKey, set_item_at_pos]
    exact getD_set_self s.keys _ (some k) none (by omega)
  · simp only [slotVal, set_item_at_pos]
    exact getD_set_self s.values _ v none (by omega)
  · intro i hi
    constructor
    · simp only [slotKey, set_item_at_pos]
      exact getD_set_ne s.keys (some k) none (fun he => hi he.symm)
    · simp only [slotVal, set_item_at_pos]
      exact getD_set_ne s.values v none (fun he => hi he.symm)

/-- A key reachable at a slot it occupies is returned by `get` (with fuel at
least the capacity, which bounds the reach witness). -/
theorem reach_get {α : Type} (s : Hash α) (k : PyKey) (i : Nat) (fuel : Nat)
    (hacc : acceptable_key k = true) (hsz : s.size ≤ fuel)
    (hreach : Reach s k i) (hslot : slotKey s i = some k) :
    get fuel s k = some (.ok (slotVal s i)) := by
  obtain ⟨n, hnlt, heq, hpre⟩ := hreach
  have hgp := get_pos_of_found s fuel k n hacc (by omega) (by rw [heq]; exact hslot) hpre
  rw [heq] at hgp
  simp only [get, hgp]
  rfl

/-! ### The invariant through re-insertion, growth and whole runs -/

theorem slot_some_lt {α : Type} (s : Hash α) (i : Nat) (k : PyKey)
    (h : slotKey s i = some k) : i < s.keys.length := by
  by_contra hlen
  push_neg at hlen
  rw [slotKey, List.getD_eq_getElem?_getD, List.getElem?_eq_none hlen] at h
  cases h

/-- Re-inserting pairs whose keys are pairwise distinct and absent from the
current arrays preserves the invariant, each placement lands in an EMPTY slot
(so already-stored pairs keep their slots and values), and afterwards every
re-inserted pair is stored. -/
theorem reposition_invariant {α : Type} (fuel : Nat) :
    ∀ (pairs : List (Option PyKey × Option α)) (s s' : Hash α),
      Inv s →
      reposition fuel s pairs = some s' →
      (∀ k v, (some k, v) ∈ pairs → ∀ i, slotKey s i ≠ some k) →
      List.Pairwise (fun a b => ∀ k, a.1 = some k → b.1 ≠ some k) pairs →
      Inv s' ∧ s'.size = s.size ∧ s'.hash = s.hash ∧
        (∀ i k₀, slotKey s i = some k₀ → slotKey s' i = some k₀ ∧ slotVal s' i = slotVal s i) ∧
        (∀ k v, (some k, v) ∈ pairs → stored s' k v) := by
  intro pairs
  induction pairs with
  | nil =>
    intro s s' hInv hre _ _
    cases hre
    exact ⟨hInv, rfl, rfl, fun i k₀ h => ⟨h, rfl⟩,
      fun k v hmem => absurd hmem (List.not_mem_nil _)⟩
  | cons pr rest ih =>
    intro s s' hInv hre hdisj hpw
    obtain ⟨ok, v⟩ := pr
    cases ok with
    | none =>
      have hre' : reposition fuel s rest = some s' := hre
      have hdisj' : ∀ k w, (some k, w) ∈ rest → ∀ i, slotKey s i ≠ some k :=
        fun k w hm => hdisj k w (List.mem_cons.mpr (Or.inr hm))
      have hpw' := (List.pairwise_cons.mp hpw).2
      obtain ⟨h1, h2, h3, h4, h5⟩ := ih s s' hInv hre' hdisj' hpw'
      refine ⟨h1, h2, h3, h4, ?_⟩
      intro k w hmem
      rcases List.mem_cons.mp hmem with hhead | htail
      · simp at hhead
      · exact h5 k w htail
    | some k =>
      rw [reposition] at hre
      cases hset : set_item fuel s (s.calculate_position (s.hash k)) k v with
      | none => rw [hset] at hre; cases hre
      | some s₁ =>
        rw [hset] at hre
        obtain ⟨hInv₁, hsz₁, hh₁, _, q, hqlt, hqold, hq_k, hq_v, hunch⟩ :=
          set_item_invariant fuel s k v s₁ hInv hset
        have hqnone : slotKey s q = none := by
          cases hqold with
          | inl h => exact h
          | inr h => exact absurd h (hdisj k v (List.mem_cons.mpr (Or.inl rfl)) q)
        have hhead := (List.pairwise_cons.mp hpw).1
        have hpw' := (List.pairwise_cons.mp hpw).2
        have hdisj₁ : ∀ k₂ w, (some k₂, w) ∈ rest → ∀ i, slotKey s₁ i ≠ some k₂ := by
          intro k₂ w hm i hcontra
          by_cases hiq : i = q
          · rw [hiq, hq_k] at hcontra
            have hk₂k : k = k₂ := Option.some_injective _ hcontra
            exact (hhead (some k₂, w) hm k rfl) (congrArg some hk₂k.symm)
          · rw [(hunch i hiq).1] at hcontra
            exact hdisj k₂ w (List.mem_cons.mpr (Or.inr hm)) i hcontra
        obtain ⟨hInv', hsz', hh', hpres, hstored'⟩ := ih s₁ s' hInv₁ hre hdisj₁ hpw'
        refine ⟨hInv', hsz'.trans hsz₁, hh'.trans hh₁, ?_, ?_⟩
        · intro i k₀ hik₀
          have hine : i ≠ q := by
            intro he
            rw [he, hqnone] at hik₀
            cases hik₀
          have hres := hpres i k₀ (by rw [(hunch i hine).1]; exact hik₀)
          exact ⟨hres.1, hres.2.trans (hunch i hine).2⟩
        · intro k₂ w hmem
          rcases List.mem_cons.mp hmem with hhd | htl
          · have hk₂ : some k₂ = some k := congrArg Prod.fst hhd
            have hw : w = v := congrArg Prod.snd hhd
            have hk₂' : k₂ = k := Option.some_injective _ hk₂
            subst hk₂'
            subst hw
            have hq' := hpres q k₂ hq_k
            exact ⟨q, hq'.1, hq'.2.trans hq_v⟩
          · exact hstored' k₂ w htl

/-- `_resize` on an invariant-satisfying state: capacity is exactly
quadrupled, the hash function is kept, `_dummy_slots` ends at 0, the
invariant holds afterwards, and every stored pair of the old arrays is stored
in the new ones. -/
theorem resize_invariant {α : Type} (fuel : Nat) (s s' : Hash α) (hInv : Inv s)
    (hres : resize fuel s = some s') :
    Inv s' ∧ s'.size = s.size * 4 ∧ s'.hash = s.hash ∧ s'.dummy_slots = 0 ∧
    ∀ i k₀, slotKey s i = some k₀ → stored s' k₀ (slotVal s i) := by
  obtain ⟨hkl, hvl, hsz, huniq, hreach⟩ := hInv
  have hres' : reposition fuel
      (⟨s.size * 4, s.initial_size, 0, 0, List.replicate (s.size * 4) none,
        List.replicate (s.size * 4) none, s.hash⟩ : Hash α)
      (s.keys.zip s.values) = some s' := hres
  have hfresh : ∀ i, slotKey (⟨s.size * 4, s.initial_size, 0, 0,
      List.replicate (s.size * 4) none, List.replicate (s.size * 4) none, s.hash⟩ : Hash α) i
      = none := fun i => getD_replicate_none _ i
  have hInv₁ : Inv (⟨s.size * 4, s.initial_size, 0, 0,
      List.replicate (s.size * 4) none, List.replicate (s.size * 4) none, s.hash⟩ : Hash α) := by
    refine ⟨List.length_replicate .., List.length_replicate .., by show 0 < s.size * 4; omega, ?_, ?_⟩
    · intro i j k₀ hi _
      rw [hfresh i] at hi
      cases hi
    · intro i k₀ hi
      rw [hfresh i] at hi
      cases hi
  have hdisj : ∀ k v, (some k, v) ∈ s.keys.zip s.values →
      ∀ i, slotKey (⟨s.size * 4, s.initial_size, 0, 0,
        List.replicate (s.size * 4) none, List.replicate (s.size * 4) none, s.hash⟩ : Hash α) i
        ≠ some k := by
    intro k v _ i hcontra
    rw [hfresh i] at hcontra
    cases hcontra
  have hzlen : (s.keys.zip s.values).length = s.size := by
    simp [List.length_zip, hkl, hvl]
  have hpw : List.Pairwise (fun a b => ∀ k, a.1 = some k → b.1 ≠ some k)
      (s.keys.zip s.values) := by
    rw [List.pairwise_iff_getElem]
    intro i j hi hj hij k hik hjk
    have hi' : i < s.keys.length := by omega
    have hj' : j < s.keys.length := by omega
    have hzi := @List.getElem_zip _ _ s.keys s.values i hi
    have hzj := @List.getElem_zip _ _ s.keys s.values j hj
    have hik' : s.keys[i] = some k := by rw [hzi] at hik; exact hik
    have hjk' : s.keys[j] = some k := by rw [hzj] at hjk; exact hjk
    have hski : slotKey s i = some k := by
      show s.keys.getD i none = some k
      rw [List.getD_eq_getElem s.keys none hi']
      exact hik'
    have hskj : slotKey s j = some k := by
      show s.keys.getD j none = some k
      rw [List.getD_eq_getElem s.keys none hj']
      exact hjk'
    have := huniq i j k hski hskj
    omega
  obtain ⟨hInv', hsz', hh', hpres, hstored'⟩ :=
    reposition_invariant fuel (s.keys.zip s.values) _ s' hInv₁ hres' hdisj hpw
  obtain ⟨_, _, _, _, hd⟩ := reposition_fields fuel _ _ s' hres'
  refine ⟨hInv', hsz', hh', hd, ?_⟩
  intro i k₀ hik₀
  have hilt : i < s.keys.length := slot_some_lt s i k₀ hik₀
  have hivt : i < s.values.length := by omega
  have hizip : i < (s.keys.zip s.values).length := by omega
  have hzi := @List.getElem_zip _ _ s.keys s.values i hizip
  have hmem := List.getElem_mem hizip
  have hkeyi : s.keys[i] = some k₀ := by
    rw [← List.getD_eq_getElem s.keys none hilt]
    exact hik₀
  have hvali : s.values[i] = slotVal s i :=
    (List.getD_eq_getElem s.values none hivt).symm
  have hpmem : (some k₀, slotVal s i) ∈ s.keys.zip s.values := by
    rw [← hkeyi, ← hvali, ← hzi]
    exact hmem
  exact hstored' k₀ (slotVal s i) hpmem

/-- A successful `put` preserves the invariant. -/
theorem put_invariant {α : Type} (fuel : Nat) (s : Hash α) (k : PyKey) (v : Option α)
    (s₂ : Hash α) (hInv : Inv s) (hput : put fuel s k v = some (.ok s₂)) : Inv s₂ := by
  obtain ⟨hacc, s₁, hs₁, hset⟩ := put_some_ok fuel s k v s₂ hput
  have hInv₁ : Inv s₁ := by
    by_cases hexp : should_expand s = true
    · rw [if_pos hexp] at hs₁
      exact (resize_invariant fuel s s₁ hInv hs₁).1
    · rw [if_neg hexp] at hs₁
      cases hs₁
      exact hInv
  exact (set_item_invariant fuel s₁ k v s₂ hInv₁ hset).1

/-- The fresh container satisfies the invariant. -/
theorem mkHash_invariant (α : Type) : Inv (mkHash α) := by
  refine ⟨List.length_replicate .., List.length_replicate .., Nat.succ_pos 7, ?_, ?_⟩
  · intro i j k hi _
    have hn : slotKey (mkHash α) i = none := getD_replicate_none 8 i
    rw [hn] at hi
    cases hi
  · intro i k hi
    have hn : slotKey (mkHash α) i = none := getD_replicate_none 8 i
    rw [hn] at hi
    cases hi

/-- Running a deletion-free sequence of operations preserves the invariant
(`put` by `put_invariant`, a raised error leaves the state unchanged, `get`
mutates nothing). -/
theorem run_invariant {α : Type} (fuel : Nat) :
    ∀ (ops : List (Op α)) (s s' : Hash α), Inv s →
      no_delete ops = true →
      run fuel s ops = some s' → Inv s' := by
  intro ops
  induction ops with
  | nil =>
    intro s s' hInv _ hrun
    cases hrun
    exact hInv
  | cons op rest ih =>
    intro s s' hInv hall hrun
    rw [no_delete, List.all_cons, Bool.and_eq_true] at hall
    obtain ⟨hop, hall'⟩ := hall
    rw [run] at hrun
    cases hstep : step fuel s op with
    | none => rw [hstep] at hrun; cases hrun
    | some s₁ =>
      rw [hstep] at hrun
      have hInv₁ : Inv s₁ := by
        cases op with
        | put k v =>
          rw [step] at hstep
          cases hp : put fuel s k v with
          | none => rw [hp] at hstep; cases hstep
          | some r =>
            rw [hp] at hstep
            cases r with
            | error e =>
              injection hstep with h
              rw [← h]
              exact hInv
            | ok s₂ =>
              injection hstep with h
              rw [← h]
              exact put_invariant fuel s k v s₂ hInv hp
        | get k =>
          rw [step] at hstep
          injection hstep with h
          rw [← h]
          exact hInv
        | del k => simp [Op.isDel] at hop
      exact ih s₁ s' hInv₁ hall' hrun

/-- C5, amended: for every deletion-free sequence of put/get operations
starting from a fresh container, every key present in the slot arrays is
unique: a key found in two slots is found in the same slot.  (Deletions can
break this, as the counterexample shows.) -/
theorem keys_unique_without_delete {α : Type} (fuel : Nat) (ops : List (Op α)) (s' : Hash α)
    (i j : Nat) (k : PyKey)
    (hnodel : no_delete ops = true)
    (hrun : run fuel (mkHash α) ops = some s')
    (hi : slotKey s' i = some k) (hj : slotKey s' j = some k) : i = j :=
  (run_invariant fuel ops (mkHash α) s' (mkHash_invariant α) hnodel hrun).2.2.2.1 i j k hi hj

/-- Witness for C5's amended theorem: after `put(0, 1)` and `put(8, 2)` from a
fresh map, key 8 sits (only) in slot 6. -/
theorem keys_unique_without_delete_witness :
    no_delete c5w_ops = true ∧
    run 8 (mkHash Nat) c5w_ops = some c5w_state ∧
    slotKey c5w_state 6 = some (.int 8) ∧
    (6 : Nat) = 6 :=
  ⟨rfl, rfl, rfl,
    keys_unique_without_delete 8 c5w_ops c5w_state 6 6 (.int 8) rfl rfl rfl rfl⟩

/-- C8, amended: growth multiplies the capacity by exactly 4 (the
re-insertion pass never re-checks the threshold), resets `deleted_count` to 0,
and — provided the pre-growth state satisfies the uniqueness/reachability
invariant (deletions can break it, as the counterexample shows) — every
stored key remains retrievable with its stored value afterwards, for any
lookup fuel of at least the new capacity. -/
theorem resize_spec {α : Type} (fuel g : Nat) (s s' : Hash α) (k : PyKey) (v : Option α)
    (i : Nat) (hInv : Inv s) (hres : resize fuel s = some s')
    (hacc : acceptable_key k = true) (hg : s'.size ≤ g)
    (hslot : slotKey s i = some k) (hval : slotVal s i = v) :
    s'.size = 4 * s.size ∧ s'.dummy_slots = 0 ∧ get g s' k = some (.ok v) := by
  obtain ⟨hInv', hsz', hh', hd', hstored⟩ := resize_invariant fuel s s' hInv hres
  obtain ⟨q, hq1, hq2⟩ := hstored i k hslot
  have hreachq := hInv'.2.2.2.2 q k hq1
  have hget := reach_get s' k q g hacc hg hreachq hq1
  refine ⟨by omega, hd', ?_⟩
  rw [hget, hq2, hval]

/-- Witness for C8's amended theorem: growing the two-key state `c8w_state`
quadruples the capacity to 32, zeroes `deleted_count`, and key 0 is still
retrievable with value 10. -/
theorem resize_spec_witness :
    resize 64 c8w_state = some c8w_resized ∧
    acceptable_key (.int 0) = true ∧
    c8w_resized.size ≤ 64 ∧
    slotKey c8w_state 0 = some (.int 0) ∧
    slotVal c8w_state 0 = some 10 ∧
    c8w_resized.size = 4 * c8w_state.size ∧
    c8w_resized.dummy_slots = 0 ∧
    get 64 c8w_resized (.int 0) = some (.ok (some 10)) := by
  have hInv : Inv c8w_state :=
    run_invariant 64 c8w_ops (mkHash Nat) c8w_state (mkHash_invariant Nat) rfl rfl
  have hmain := resize_spec 64 64 c8w_state c8w_resized (.int 0) (some 10) 0 hInv rfl rfl
    (by decide) rfl rfl
  exact ⟨rfl, rfl, by decide, rfl, rfl, hmain.1, hmain.2.1, hmain.2.2⟩

end ProbingHash
